import Mathlib

/-!
Verification development for QuakeTracker: a seismic-event store with an
analytics engine (Rust/Tauri backend) and a SvelteKit chart frontend.

The frontend chart-mapping code (in particular `mapToPieRegions` from
src/charts/pie-regions/map.ts) is embedded directly from its TypeScript
source.  The backend event store and analytics engine are not part of the
available sources (only their command documentation and frontend callers
are), so those definitions are modelled from the specification, as marked
on each definition.
-/

set_option autoImplicit false

namespace QuakeTracker

/-- Modelled from the spec: the SeismicEvent record (spec section 3, and the
EMSC feature `properties` shown in the command documentation).  Timestamps
`time` and `lastupdate` are rational day counts since the epoch; `depth` and
`mag` are optional, and an absent magnitude or depth is excluded from numeric
aggregates rather than treated as zero. -/
structure SeismicEvent where
  id : String
  source_id : String
  source_catalog : String
  time : ℚ
  lastupdate : ℚ
  lat : ℚ
  lon : ℚ
  depth : Option ℚ
  mag : Option ℚ
  magtype : String
  evtype : String
  flynn_region : String
  auth : String
deriving DecidableEq

/-- The ids of a list of events, in order. -/
def ids (l : List SeismicEvent) : List String :=
  l.map SeismicEvent.id

/-- Modelled from the spec: create-or-replace by id (spec section 4.1,
`upsert(event)`).  If the id is already present the stored event is replaced
in place; otherwise the event is appended. -/
def upsertList (e : SeismicEvent) : List SeismicEvent → List SeismicEvent
  | [] => [e]
  | x :: xs => if x.id = e.id then e :: xs else x :: upsertList e xs

/-- Modelled from the spec: the event store, a collection of events keyed by
id together with the generation counter bumped once per mutation
(spec sections 3 and 4.1). -/
structure EventStore where
  events : List SeismicEvent
  generation : ℕ
deriving DecidableEq

/-- The store created empty at process start. -/
def EventStore.empty : EventStore :=
  ⟨[], 0⟩

/-- Modelled from the spec: `upsert(event)` bumps the generation once. -/
def EventStore.upsert (s : EventStore) (e : SeismicEvent) : EventStore :=
  ⟨upsertList e s.events, s.generation + 1⟩

/-- Modelled from the spec: `load(events, clear)` — if `clear`, discard all
existing entries; then upsert every incoming event by id; bump the generation
exactly once for the whole batch (spec section 4.1). -/
def EventStore.load (s : EventStore) (es : List SeismicEvent) (clear : Bool) :
    EventStore :=
  ⟨es.foldl (fun acc e => upsertList e acc) (if clear then [] else s.events),
    s.generation + 1⟩

/-- Modelled from the spec: query filters (spec section 6); every field is
optional and an omitted field constrains nothing.  Only a representative
subset of the documented filter fields is modelled. -/
structure QueryFilters where
  min_magnitude : Option ℚ := none
  max_magnitude : Option ℚ := none
  event_id : Option String := none
deriving DecidableEq

/-- Whether an event passes every present filter field. -/
def matchesFilters (f : QueryFilters) (e : SeismicEvent) : Bool :=
  (match f.min_magnitude with
    | none => true
    | some m => (e.mag.map fun x => decide (m ≤ x)).getD false) &&
  (match f.max_magnitude with
    | none => true
    | some m => (e.mag.map fun x => decide (x ≤ m)).getD false) &&
  (match f.event_id with
    | none => true
    | some i => e.id == i)

/-- Modelled from the spec: `query(filters)` — a pure function over a
snapshot of the store; never mutates (spec section 4.1). -/
def EventStore.query (s : EventStore) (f : QueryFilters) : List SeismicEvent :=
  s.events.filter (matchesFilters f)

/-- The store states reachable through the Event Store interface: created
empty at process start and mutated only by `load` and `upsert`. -/
inductive Reachable : EventStore → Prop
  | protected empty : Reachable EventStore.empty
  | protected load (s : EventStore) (es : List SeismicEvent) (c : Bool) :
      Reachable s → Reachable (s.load es c)
  | protected upsert (s : EventStore) (e : SeismicEvent) :
      Reachable s → Reachable (s.upsert e)

/-- Hour of day (0–23) of a day-count timestamp. -/
def hourOf (t : ℚ) : ℤ :=
  Int.floor (t * 24) % 24

/-- Weekday index (0 = Monday .. 6 = Sunday) of a day-count timestamp;
day 0 (1970-01-01) was a Thursday, index 3. -/
def weekdayOf (t : ℚ) : ℤ :=
  (Int.floor t + 3) % 7

/-- Civil date (year, month, day) from a day count since 1970-01-01, after
the standard days-from-civil inverse algorithm on integer arithmetic. -/
def civilFromDays (z0 : ℤ) : ℤ × ℤ × ℤ :=
  let z := z0 + 719468
  let era := z / 146097
  let doe := z % 146097
  let yoe := (doe - doe / 1460 + doe / 36524 - doe / 146096) / 365
  let y := yoe + era * 400
  let doy := doe - (365 * yoe + yoe / 4 - yoe / 100)
  let mp := (5 * doy + 2) / 153
  let d := doy - (153 * mp + 2) / 5 + 1
  let m := mp + (if mp < 10 then 3 else -9)
  (y + (if m ≤ 2 then 1 else 0), m, d)

/-- Month (1–12) of a day-count timestamp. -/
def monthOf (t : ℚ) : ℤ :=
  (civilFromDays (Int.floor t)).2.1

/-- Fixed Mon..Sun weekday labels used by the weekly frequency result. -/
def weekdayNames : List String :=
  ["Mon", "Tue", "Wed", "Thu", "Fri", "Sat", "Sun"]

/-- Modelled from the spec: hourly frequency — group by hour of day (0–23);
all 24 buckets are always emitted, including zero-count ones
(spec section 4.3). -/
def hourlyFrequency (es : List SeismicEvent) : List (ℤ × ℕ) :=
  (List.range 24).map fun (h : ℕ) =>
    ((h : ℤ), es.countP fun e => hourOf e.time = (h : ℤ))

/-- Modelled from the spec: weekly frequency — group by weekday in fixed
Mon..Sun order; all 7 buckets are always emitted (spec section 4.3). -/
def weeklyFrequency (es : List SeismicEvent) : List (String × ℕ) :=
  (List.range 7).map fun d =>
    (weekdayNames.getD d "", es.countP fun e => weekdayOf e.time = (d : ℤ))

/-- Modelled from the spec: monthly frequency — group by month (1–12); all
12 buckets are always emitted (spec section 4.3). -/
def monthlyFrequency (es : List SeismicEvent) : List (ℤ × ℕ) :=
  (List.range 12).map fun (m : ℕ) =>
    ((m : ℤ) + 1, es.countP fun e => monthOf e.time = (m : ℤ) + 1)

/-- Magnitude bin index of an event (width 0.2, anchored at 0): the bin of a
defined magnitude `m` is `⌊m / 0.2⌋`; events without a magnitude fall in no
bin. -/
def magBin (e : SeismicEvent) : Option ℤ :=
  e.mag.map fun m => Int.floor (m * 5)

/-- The ascending list of distinct occupied magnitude bins. -/
def grBinList (es : List SeismicEvent) : List ℤ :=
  List.insertionSort (· ≤ ·) (es.filterMap magBin).dedup

/-- Non-cumulative Gutenberg-Richter count: events falling in bin `b`. -/
def grCount (es : List SeismicEvent) (b : ℤ) : ℕ :=
  es.countP fun e => magBin e = some b

/-- Whether an optional bin index is at least `b`. -/
def binGE (b : ℤ) : Option ℤ → Bool
  | some b2 => b ≤ b2
  | none => false

/-- Right-tail cumulative Gutenberg-Richter count: events with magnitude bin
at least `b`. -/
def grCum (es : List SeismicEvent) (b : ℤ) : ℕ :=
  es.countP fun e => binGE b (magBin e)

/-- Modelled from the spec: the Gutenberg-Richter table — for ascending
magnitude bins, the non-cumulative count and the right-tail cumulative count
(spec section 4.3 and `get_magnitude_frequency_data`). -/
def magnitudeFrequencyTable (es : List SeismicEvent) : List (ℤ × ℕ × ℕ) :=
  (grBinList es).map fun b => (b, grCount es b, grCum es b)

/-- Group a list of labels: each distinct label paired with its number of
occurrences (the size of its group). -/
def labelCounts (ls : List String) : List (String × ℕ) :=
  ls.dedup.map fun r => (r, ls.countP fun x => x = r)

/-- Descending-by-count order on (label, count) entries. -/
def descByCount (a b : String × ℕ) : Prop :=
  b.2 ≤ a.2

instance : DecidableRel descByCount :=
  fun _ _ => Nat.decLe _ _

instance : IsTotal (String × ℕ) descByCount :=
  ⟨fun a b => (Nat.le_total a.2 b.2).symm⟩

instance : IsTrans (String × ℕ) descByCount :=
  ⟨fun _ _ _ h1 h2 => Nat.le_trans h2 h1⟩

/-- Modelled from the spec: `region_hotspots()` — group by region label,
count per region, descending by count (spec sections 4.3 and 6). -/
def regionHotspots (es : List SeismicEvent) : List (String × ℕ) :=
  List.insertionSort descByCount (labelCounts (es.map SeismicEvent.flynn_region))

/-- The `properties` object of a GeoJSON feature, as read by the pie-region
mapper (only `flynn_region` is accessed). -/
structure FeatureProperties where
  flynn_region : String
deriving DecidableEq

/-- A GeoJSON feature as consumed by `mapToPieRegions`. -/
structure Feature where
  properties : FeatureProperties
deriving DecidableEq

/-- The region label of each feature, in order. -/
def regionLabels (fs : List Feature) : List String :=
  fs.map fun f => f.properties.flynn_region

/-- From src/charts/pie-regions/map.ts: `Object.groupBy` on
`item.properties.flynn_region` followed by mapping each group to
`{name, value: group.length}` and sorting by count in descending order. -/
def sortedRegions (fs : List Feature) : List (String × ℕ) :=
  List.insertionSort descByCount (labelCounts (regionLabels fs))

/-- From src/charts/pie-regions/map.ts: `sortedRegions.slice(0, 10)`. -/
def topRegions (fs : List Feature) : List (String × ℕ) :=
  (sortedRegions fs).take 10

/-- From src/charts/pie-regions/map.ts: the summed counts of
`sortedRegions.slice(10)`. -/
def othersCount (fs : List Feature) : ℕ :=
  (((sortedRegions fs).drop 10).map Prod.snd).sum

/-- From src/charts/pie-regions/map.ts: the top 10 regions by count, with one
aggregate "Others" entry appended when the remaining regions have a positive
total count. -/
def mapToPieRegions (fs : List Feature) : List (String × ℕ) :=
  if 0 < othersCount fs then
    topRegions fs ++ [("Others", othersCount fs)]
  else
    topRegions fs

/-- The occurrence timestamps of a list of events. -/
def occurredTimes (es : List SeismicEvent) : List ℚ :=
  es.map SeismicEvent.time

/-- Modelled from the spec: `observed_span_days = max(occurredAt) −
min(occurredAt)` over all events, and 0 for an empty store
(spec section 4.3, risk metrics). -/
def observedSpanDays (es : List SeismicEvent) : ℚ :=
  match occurredTimes es with
  | [] => 0
  | t :: ts => ts.foldl max t - ts.foldl min t

/-- The number of events with a defined magnitude at least `thr`. -/
def qualifyingCount (es : List SeismicEvent) (thr : ℚ) : ℕ :=
  es.countP fun e => (e.mag.map fun m => decide (thr ≤ m)).getD false

/-- Modelled from the spec: the Poisson rate `λ_threshold =
count(magnitude ≥ threshold) / observed_span_days`, explicitly 0 when the
observed span is zero (spec section 4.3, risk metrics). -/
def riskRate (es : List SeismicEvent) (thr : ℚ) : ℚ :=
  if observedSpanDays es = 0 then 0
  else (qualifyingCount es thr : ℚ) / observedSpanDays es

/-- Modelled from the spec: the analytics cache — one value per metric,
stamped with the generation at computation time (spec section 3). -/
structure AnalyticsCache where
  hourly : List (ℤ × ℕ)
  weekly : List (String × ℕ)
  monthly : List (ℤ × ℕ)
  hotspots : List (String × ℕ)
  magFreqTable : List (ℤ × ℕ × ℕ)
  generation : ℕ
deriving DecidableEq

/-- Recompute every cached metric from the current store contents. -/
def computeCache (s : EventStore) : AnalyticsCache :=
  ⟨hourlyFrequency s.events, weeklyFrequency s.events,
    monthlyFrequency s.events, regionHotspots s.events,
    magnitudeFrequencyTable s.events, s.generation⟩

/-- Modelled from the spec: a forced `recompute_analytics` over a refresh
step that may fail — on success the whole cache is replaced by the freshly
computed one, on failure the previous cache is returned unchanged
(spec sections 4.3 and 7). -/
def recomputeAnalytics (compute : EventStore → Except String AnalyticsCache)
    (s : EventStore) (c : AnalyticsCache) : AnalyticsCache :=
  match compute s with
  | .ok c2 => c2
  | .error _ => c

/-- A sample event used by concrete witnesses. -/
def evA : SeismicEvent :=
  ⟨"20241210_0000315", "1741830", "EMSC-RTS", 20067, 20067, 188232 / 10000,
    -15548750 / 100000, some (161 / 10), some (42 / 10), "md", "ke",
    "HAWAII REGION, HAWAII", "HV"⟩

/-- A second sample event with a distinct id. -/
def evB : SeismicEvent :=
  ⟨"20241214_0000249", "1744000", "EMSC-RTS", 20071, 20072, 460554 / 10000,
    78865 / 10000, some 8, some (31 / 10), "ml", "ke", "SWITZERLAND", "ETHZ"⟩

/-- A live update for the same id as `evA` with changed fields. -/
def evA2 : SeismicEvent :=
  ⟨"20241210_0000315", "1741830", "EMSC-RTS", 20067, 20068, 188240 / 10000,
    -15548700 / 100000, some 16, some (44 / 10), "md", "ke",
    "HAWAII REGION, HAWAII", "HV"⟩

/-! ### Basic facts about the event store -/

theorem ids_append (l1 l2 : List SeismicEvent) :
    ids (l1 ++ l2) = ids l1 ++ ids l2 :=
  List.map_append _ _ _

theorem ids_upsertList_of_mem {e : SeismicEvent} {l : List SeismicEvent}
    (h : e.id ∈ ids l) : ids (upsertList e l) = ids l := by
  induction l with
  | nil => simp [ids] at h
  | cons x xs ih =>
    by_cases hx : x.id = e.id
    · simp [upsertList, hx, ids]
    · have hmem : e.id ∈ ids xs := by
        cases List.mem_cons.mp h with
        | inl h1 => exact absurd h1.symm hx
        | inr h1 => exact h1
      have ih2 := ih hmem
      simp only [upsertList, if_neg hx, ids, List.map_cons, List.cons.injEq]
      exact ⟨trivial, ih2⟩

theorem upsertList_of_not_mem {e : SeismicEvent} {l : List SeismicEvent}
    (h : e.id ∉ ids l) : upsertList e l = l ++ [e] := by
  induction l with
  | nil => rfl
  | cons x xs ih =>
    have hx : ¬x.id = e.id := fun hc => h (by
      show e.id ∈ x.id :: ids xs
      rw [hc]; exact List.mem_cons_self _ _)
    have hxs : e.id ∉ ids xs := fun hc => h (List.mem_cons_of_mem _ hc)
    simp [upsertList, hx, ih hxs]

theorem mem_upsertList_self (e : SeismicEvent) (l : List SeismicEvent) :
    e ∈ upsertList e l := by
  induction l with
  | nil => simp [upsertList]
  | cons x xs ih =>
    by_cases hx : x.id = e.id <;> simp [upsertList, hx, ih]

theorem nodup_ids_upsertList {l : List SeismicEvent} (e : SeismicEvent)
    (h : (ids l).Nodup) : (ids (upsertList e l)).Nodup := by
  by_cases hm : e.id ∈ ids l
  · rw [ids_upsertList_of_mem hm]; exact h
  · show (ids (upsertList e l)).Nodup
    rw [upsertList_of_not_mem hm, ids_append]
    refine List.Nodup.append h (by simp [ids]) ?_
    intro a ha hb
    have ha2 : a = e.id := by simpa [ids] using hb
    exact hm (ha2 ▸ ha)

theorem nodup_ids_foldl_upsert :
    ∀ (es : List SeismicEvent) (acc : List SeismicEvent), (ids acc).Nodup →
      (ids (es.foldl (fun a e => upsertList e a) acc)).Nodup := by
  intro es
  induction es with
  | nil => intro acc h; simpa using h
  | cons e es ih =>
    intro acc h
    exact ih (upsertList e acc) (nodup_ids_upsertList e h)

theorem foldl_upsert_of_nodup :
    ∀ (es : List SeismicEvent) (acc : List SeismicEvent),
      (ids (acc ++ es)).Nodup →
      es.foldl (fun a e => upsertList e a) acc = acc ++ es := by
  intro es
  induction es with
  | nil => intro acc _; simp
  | cons e es ih =>
    intro acc h
    have hids : (ids acc ++ e.id :: ids es).Nodup := by
      simpa [ids_append, ids] using h
    have hne : e.id ∉ ids acc := by
      rcases List.nodup_append.mp hids with ⟨_, _, hdisj⟩
      exact fun hc => hdisj hc (by simp)
    have hstep : upsertList e acc = acc ++ [e] := upsertList_of_not_mem hne
    have hrest : (ids ((acc ++ [e]) ++ es)).Nodup := by
      rw [← List.append_cons]; exact h
    calc (e :: es).foldl (fun a e2 => upsertList e2 a) acc
        = es.foldl (fun a e2 => upsertList e2 a) (acc ++ [e]) := by
          simp [List.foldl_cons, hstep]
      _ = (acc ++ [e]) ++ es := ih (acc ++ [e]) hrest
      _ = acc ++ e :: es := (List.append_cons acc e es).symm

theorem matchesFilters_default (e : SeismicEvent) :
    matchesFilters {} e = true :=
  rfl

theorem query_default_filters (s : EventStore) :
    s.query {} = s.events :=
  List.filter_eq_self.mpr fun a _ => matchesFilters_default a

theorem reachable_nodup {s : EventStore} (h : Reachable s) :
    (ids s.events).Nodup := by
  induction h with
  | empty => simp [EventStore.empty, ids]
  | load s es c _ ih =>
    cases c with
    | true => exact nodup_ids_foldl_upsert es [] (by simp [ids])
    | false => exact nodup_ids_foldl_upsert es s.events ih
  | upsert s e _ ih => exact nodup_ids_upsertList e ih

/-! ### Claim theorems -/

/-- Claim C1: for every list of well-formed events (one stored event per
distinct id), `load(events, clear=true)` followed by `query({})` returns
exactly the loaded events, and a load of any permutation of the same events
yields the same stored events up to permutation, so the round-trip is
independent of arrival order. -/
theorem load_clear_query_round_trip (s s2 : EventStore)
    (es es2 : List SeismicEvent) (h : (ids es).Nodup) (hp : es2.Perm es) :
    (s.load es true).query {} = es ∧
      ((s2.load es2 true).query {}).Perm ((s.load es true).query {}) := by
  have key : ∀ s0 : EventStore, ∀ l : List SeismicEvent, (ids l).Nodup →
      (s0.load l true).query {} = l := by
    intro s0 l hl
    rw [query_default_filters]
    show l.foldl (fun a e => upsertList e a) (if true then [] else s0.events) = l
    simpa using foldl_upsert_of_nodup l [] (by simpa using hl)
  have h2 : (ids es2).Nodup := ((hp.map SeismicEvent.id).symm).nodup h
  refine ⟨key s es h, ?_⟩
  rw [key s es h, key s2 es2 h2]
  exact hp

/-- Witness for C1 at two concrete two-event lists that are permutations of
each other. -/
theorem load_clear_query_round_trip_witness :
    ((ids [evA, evB]).Nodup ∧ ([evB, evA] : List SeismicEvent).Perm [evA, evB]) ∧
      ((EventStore.empty.load [evA, evB] true).query {} = [evA, evB] ∧
        ((EventStore.empty.load [evB, evA] true).query {}).Perm
          ((EventStore.empty.load [evA, evB] true).query {})) :=
  ⟨⟨by decide, List.Perm.swap evA evB []⟩,
    load_clear_query_round_trip EventStore.empty EventStore.empty
      [evA, evB] [evB, evA] (by decide) (List.Perm.swap evA evB [])⟩

/-- Claim C2: in every reachable store state no two stored events share an
id, and `upsert` with an id already present replaces that event in place —
the stored id sequence is unchanged (hence so is the number of stored
events), while a fresh id is appended. -/
theorem reachable_unique_ids_upsert (s : EventStore) (h : Reachable s) :
    (ids s.events).Nodup ∧
      ∀ e : SeismicEvent,
        ids (s.upsert e).events =
          (if e.id ∈ ids s.events then ids s.events
            else ids s.events ++ [e.id]) ∧
        (s.upsert e).events.length =
          (if e.id ∈ ids s.events then s.events.length
            else s.events.length + 1) ∧
        e ∈ (s.upsert e).events := by
  refine ⟨reachable_nodup h, fun e => ?_⟩
  by_cases hm : e.id ∈ ids s.events
  · have hid : ids (s.upsert e).events = ids s.events :=
      ids_upsertList_of_mem hm
    have hlen : (s.upsert e).events.length = s.events.length := by
      have := congrArg List.length hid
      simpa [ids] using this
    simp only [if_pos hm]
    exact ⟨hid, hlen, mem_upsertList_self e s.events⟩
  · have hid : ids (s.upsert e).events = ids s.events ++ [e.id] := by
      show ids (upsertList e s.events) = _
      rw [upsertList_of_not_mem hm, ids_append]; rfl
    have hlen : (s.upsert e).events.length = s.events.length + 1 := by
      have := congrArg List.length hid
      simpa [ids] using this
    simp only [if_neg hm]
    exact ⟨hid, hlen, mem_upsertList_self e s.events⟩

/-- Witness for C2 at a concrete reachable store holding one event, updated
by a live update with the same id: the id sequence and event count are
unchanged and the new record is stored. -/
theorem reachable_unique_ids_upsert_witness :
    (ids (EventStore.empty.upsert evA).events).Nodup ∧
      ids ((EventStore.empty.upsert evA).upsert evA2).events =
        ids (EventStore.empty.upsert evA).events ∧
      ((EventStore.empty.upsert evA).upsert evA2).events.length =
        (EventStore.empty.upsert evA).events.length ∧
      evA2 ∈ ((EventStore.empty.upsert evA).upsert evA2).events := by
  have h := reachable_unique_ids_upsert (EventStore.empty.upsert evA)
    (Reachable.upsert _ _ Reachable.empty)
  have hm : evA2.id ∈ ids (EventStore.empty.upsert evA).events := by decide
  have h2 := h.2 evA2
  rw [if_pos hm] at h2
  exact ⟨h.1, h2.1, by rw [h2.2.1, if_pos hm], h2.2.2⟩

/-- Claim C3: for every store contents, including the empty store, the
hourly, weekly and monthly frequency results have exactly 24, 7 and 12
(bucket, count) entries, and the bucket sequences are the same as those
produced against the empty store, so zero-count buckets are included. -/
theorem frequency_fixed_cardinality (es : List SeismicEvent) :
    (hourlyFrequency es).length = 24 ∧ (weeklyFrequency es).length = 7 ∧
      (monthlyFrequency es).length = 12 ∧
      (hourlyFrequency es).map Prod.fst = (hourlyFrequency []).map Prod.fst ∧
      (weeklyFrequency es).map Prod.fst = (weeklyFrequency []).map Prod.fst ∧
      (monthlyFrequency es).map Prod.fst =
        (monthlyFrequency []).map Prod.fst := by
  refine ⟨?_, ?_, ?_, ?_, ?_, ?_⟩
  · simp only [hourlyFrequency, List.length_map, List.length_range]
  · simp only [weeklyFrequency, List.length_map, List.length_range]
  · simp only [monthlyFrequency, List.length_map, List.length_range]
  · rw [hourlyFrequency, hourlyFrequency, List.map_map, List.map_map]
    exact List.map_congr_left fun a _ => rfl
  · rw [weeklyFrequency, weeklyFrequency, List.map_map, List.map_map]
    exact List.map_congr_left fun a _ => rfl
  · rw [monthlyFrequency, monthlyFrequency, List.map_map, List.map_map]
    exact List.map_congr_left fun a _ => rfl

/-- Claim C6: the Poisson risk probability `1 − e^(−λ·window_days)` with
`λ = count(magnitude ≥ threshold) / observed_span_days` is exactly 0 whenever
the observed time span is zero or no event meets the magnitude threshold; the
result is a plain value, not an error. -/
theorem risk_probability_zero (es : List SeismicEvent) (thr window : ℚ)
    (h : observedSpanDays es = 0 ∨ qualifyingCount es thr = 0) :
    (1 : ℝ) - Real.exp (-((riskRate es thr : ℝ) * (window : ℝ))) = 0 := by
  have hr : riskRate es thr = 0 := by
    rcases h with h | h
    · simp [riskRate, h]
    · simp only [riskRate, h]
      split <;> simp
  rw [hr]
  push_cast
  simp

/-- Witness for C6 at the empty store: the observed span is zero and the
probability is exactly 0 for the magnitude-5, 30-day metric. -/
theorem risk_probability_zero_witness :
    observedSpanDays [] = 0 ∧
      (1 : ℝ) - Real.exp (-((riskRate [] 5 : ℝ) * ((30 : ℚ) : ℝ))) = 0 :=
  ⟨rfl, risk_probability_zero [] 5 30 (Or.inl rfl)⟩

/-- Claim C7: forced recomputation is all-or-nothing — for any refresh step,
either it succeeds and the returned cache is exactly the freshly computed
one, or it fails and the previous cache is returned entirely unchanged; and
with the total refresh step every metric of the cache is recomputed from the
store. -/
theorem recompute_all_or_nothing
    (compute : EventStore → Except String AnalyticsCache)
    (s : EventStore) (c : AnalyticsCache) :
    ((∃ c2, compute s = Except.ok c2 ∧ recomputeAnalytics compute s c = c2) ∨
        ((∃ msg, compute s = Except.error msg) ∧
          recomputeAnalytics compute s c = c)) ∧
      recomputeAnalytics (fun st => Except.ok (computeCache st)) s c =
        computeCache s := by
  constructor
  · cases hc : compute s with
    | ok c2 => exact Or.inl ⟨c2, rfl, by simp [recomputeAnalytics, hc]⟩
    | error msg => exact Or.inr ⟨⟨msg, rfl⟩, by simp [recomputeAnalytics, hc]⟩
  · rfl

/-! ### Counting helpers shared by the grouped metrics -/

theorem sum_map_add {α : Type} (keys : List α) (f g : α → ℕ) :
    (keys.map fun k => f k + g k).sum = (keys.map f).sum + (keys.map g).sum := by
  induction keys with
  | nil => simp
  | cons k ks ih => simp [ih]; omega

theorem sum_indicator_of_not_mem {α : Type} [DecidableEq α] {a : α} :
    ∀ {keys : List α}, a ∉ keys →
      (keys.map fun k => if a = k then 1 else 0).sum = 0 := by
  intro keys
  induction keys with
  | nil => intro _; rfl
  | cons k ks ih =>
    intro h
    have hk : ¬a = k := fun hc => h (hc ▸ List.mem_cons_self k ks)
    have hks : a ∉ ks := fun hc => h (List.mem_cons_of_mem k hc)
    simp [hk, ih hks]

theorem sum_indicator_of_mem {α : Type} [DecidableEq α] {a : α} :
    ∀ {keys : List α}, keys.Nodup → a ∈ keys →
      (keys.map fun k => if a = k then 1 else 0).sum = 1 := by
  intro keys
  induction keys with
  | nil => intro _ h; simp at h
  | cons k ks ih =>
    intro hnd hmem
    have hknotin : k ∉ ks := (List.nodup_cons.mp hnd).1
    cases List.mem_cons.mp hmem with
    | inl h1 =>
      subst h1
      simp [sum_indicator_of_not_mem hknotin]
    | inr h1 =>
      have hak : ¬a = k := fun hc => hknotin (hc ▸ h1)
      simp [hak, ih (List.nodup_cons.mp hnd).2 h1]

theorem sum_countP_eq_length {α : Type} [DecidableEq α] (keys : List α)
    (hnd : keys.Nodup) :
    ∀ l : List α, (∀ x ∈ l, x ∈ keys) →
      (keys.map fun k => l.countP fun x => x = k).sum = l.length := by
  intro l
  induction l with
  | nil => intro _; simp
  | cons a l ih =>
    intro hcov
    have hmem : a ∈ keys := hcov a (List.mem_cons_self a l)
    have hcov2 : ∀ x ∈ l, x ∈ keys := fun x hx =>
      hcov x (List.mem_cons_of_mem a hx)
    have hstep : (keys.map fun k => (a :: l).countP fun x => x = k) =
        keys.map fun k =>
          (l.countP fun x => x = k) + (if a = k then 1 else 0) := by
      refine List.map_congr_left fun k _ => ?_
      rw [List.countP_cons]
      simp
    rw [hstep, sum_map_add, ih hcov2, sum_indicator_of_mem hnd hmem,
      List.length_cons]

/-! ### Gutenberg-Richter table lemmas -/

theorem countP_magBin_filterMap (es : List SeismicEvent) (b : ℤ) :
    (es.countP fun e => magBin e = some b) =
      (es.filterMap magBin).countP fun x => x = b := by
  induction es with
  | nil => simp
  | cons e es ih =>
    rw [List.filterMap_cons]
    cases hm : magBin e with
    | none => rw [List.countP_cons]; simp [hm, ih]
    | some x => rw [List.countP_cons, List.countP_cons]; simp [hm, ih]

theorem length_filterMap_magBin (es : List SeismicEvent) :
    (es.filterMap magBin).length = es.countP fun e => e.mag.isSome := by
  induction es with
  | nil => simp
  | cons e es ih =>
    rw [List.filterMap_cons, List.countP_cons]
    cases hm : e.mag with
    | none => simp [magBin, hm, ih]
    | some m => simp [magBin, hm, ih]

theorem nodup_grBinList (es : List SeismicEvent) : (grBinList es).Nodup :=
  (List.perm_insertionSort _ _).symm.nodup (List.nodup_dedup _)

theorem mem_grBinList {es : List SeismicEvent} {x : ℤ}
    (hx : x ∈ es.filterMap magBin) : x ∈ grBinList es :=
  (List.perm_insertionSort _ _).mem_iff.mpr (List.mem_dedup.mpr hx)

/-- Claim C4: in the Gutenberg-Richter magnitude-frequency table the sum of
the non-cumulative counts equals the number of events with a defined
magnitude, and along the ascending bins the right-tail cumulative column is
non-increasing. -/
theorem magnitude_frequency_table_sound (es : List SeismicEvent) :
    ((magnitudeFrequencyTable es).map fun r => r.2.1).sum =
        (es.countP fun e => e.mag.isSome) ∧
      (magnitudeFrequencyTable es).Pairwise fun r r2 => r2.2.2 ≤ r.2.2 := by
  constructor
  · rw [magnitudeFrequencyTable, List.map_map]
    have h1 : ((grBinList es).map
          ((fun r : ℤ × ℕ × ℕ => r.2.1) ∘ fun b =>
            (b, grCount es b, grCum es b))).sum =
        ((grBinList es).map fun b =>
          (es.filterMap magBin).countP fun x => x = b).sum := by
      congr 1
      refine List.map_congr_left fun b _ => ?_
      show grCount es b = _
      rw [grCount, countP_magBin_filterMap]
    rw [h1,
      sum_countP_eq_length _ (nodup_grBinList es) _ fun x hx => mem_grBinList hx,
      length_filterMap_magBin]
  · have hs : List.Pairwise (· ≤ ·) (grBinList es) :=
      List.sorted_insertionSort _ _
    refine List.Pairwise.map _ ?_ hs
    intro b b2 hb
    apply List.countP_mono_left
    intro e _ he
    cases hm : magBin e with
    | none =>
      rw [hm] at he
      simp [binGE] at he
    | some x =>
      rw [hm] at he
      simp [binGE] at he
      simp only [binGE, decide_eq_true_eq]
      exact le_trans hb he

/-- Claim C5: the region hotspots result is, up to its descending
rearrangement, exactly the per-region group counts — one entry per distinct
region label carrying the number of events with that label — and it is
sorted in descending order of count. -/
theorem region_hotspots_desc (es : List SeismicEvent) :
    (regionHotspots es).Perm
        (labelCounts (es.map SeismicEvent.flynn_region)) ∧
      (regionHotspots es).Pairwise descByCount ∧
      (labelCounts (es.map SeismicEvent.flynn_region)).map Prod.fst =
        (es.map SeismicEvent.flynn_region).dedup := by
  refine ⟨List.perm_insertionSort _ _, List.sorted_insertionSort descByCount _,
    ?_⟩
  rw [labelCounts, List.map_map]
  exact (List.map_congr_left fun a _ => rfl).trans (List.map_id _)

/-! ### Pie-region truncation lemmas -/

theorem sortedRegions_perm (fs : List Feature) :
    (sortedRegions fs).Perm (labelCounts (regionLabels fs)) :=
  List.perm_insertionSort _ _

theorem length_sortedRegions (fs : List Feature) :
    (sortedRegions fs).length = (regionLabels fs).dedup.length := by
  rw [(sortedRegions_perm fs).length_eq, labelCounts, List.length_map]

theorem one_le_snd_of_mem_sortedRegions {fs : List Feature} {p : String × ℕ}
    (hp : p ∈ sortedRegions fs) : 1 ≤ p.2 := by
  have hp2 : p ∈ labelCounts (regionLabels fs) :=
    (sortedRegions_perm fs).mem_iff.mp hp
  obtain ⟨r, hr, hpr⟩ := List.mem_map.mp hp2
  have hrl : r ∈ regionLabels fs := List.mem_dedup.mp hr
  have hpos : 0 < (regionLabels fs).countP fun x => x = r :=
    List.countP_pos_iff.mpr ⟨r, hrl, by simp⟩
  rw [← hpr]
  exact hpos

theorem othersCount_eq_zero_of_le {fs : List Feature}
    (h : (regionLabels fs).dedup.length ≤ 10) : othersCount fs = 0 := by
  rw [othersCount, List.drop_eq_nil_of_le (by rw [length_sortedRegions]; exact h)]
  rfl

theorem othersCount_pos_of_lt {fs : List Feature}
    (h : 10 < (regionLabels fs).dedup.length) : 0 < othersCount fs := by
  have hlen : 10 < (sortedRegions fs).length := by
    rw [length_sortedRegions]; exact h
  cases hd : (sortedRegions fs).drop 10 with
  | nil =>
    have : ((sortedRegions fs).drop 10).length = 0 := by rw [hd]; rfl
    rw [List.length_drop] at this
    omega
  | cons p t =>
    rw [othersCount, hd]
    have hp : p ∈ sortedRegions fs :=
      List.mem_of_mem_drop (hd ▸ List.mem_cons_self p t)
    have h1 : 1 ≤ p.2 := one_le_snd_of_mem_sortedRegions hp
    simp only [List.map_cons, List.sum_cons]
    omega

/-- Claim C8: the bounded regional analysis result holds at most the top 10
regions by count plus at most one aggregate "Others" entry — so at most 11
entries — and the aggregate entry is appended exactly when more than 10
distinct regions occur; with at most 10 distinct regions the result is the
full sorted per-region list. -/
theorem pie_regions_top_bounded (fs : List Feature) :
    (mapToPieRegions fs).length ≤ 11 ∧
      mapToPieRegions fs =
        (if 10 < (regionLabels fs).dedup.length then
          topRegions fs ++ [("Others", othersCount fs)]
        else sortedRegions fs) := by
  by_cases h : 10 < (regionLabels fs).dedup.length
  · have hpos := othersCount_pos_of_lt h
    have heq : mapToPieRegions fs =
        topRegions fs ++ [("Others", othersCount fs)] := by
      rw [mapToPieRegions, if_pos hpos]
    refine ⟨?_, by rw [heq, if_pos h]⟩
    rw [heq, List.length_append]
    have htop : (topRegions fs).length ≤ 10 := by
      rw [topRegions, List.length_take]
      exact min_le_left _ _
    simp only [List.length_singleton]
    omega
  · have hz := othersCount_eq_zero_of_le (Nat.le_of_not_lt h)
    have heq : mapToPieRegions fs = topRegions fs := by
      rw [mapToPieRegions, if_neg (by omega)]
    have htop : topRegions fs = sortedRegions fs := by
      rw [topRegions]
      exact List.take_of_length_le (by rw [length_sortedRegions]; omega)
    refine ⟨?_, by rw [heq, if_neg h, htop]⟩
    rw [heq, htop, length_sortedRegions]
    omega

/-- Claim C10: the sum of the per-entry counts returned by `mapToPieRegions`
(including the "Others" entry when present) equals the number of input
features — the top-10 truncation loses and double-counts nothing. -/
theorem pie_regions_count_preserved (fs : List Feature) :
    ((mapToPieRegions fs).map Prod.snd).sum = fs.length := by
  have htotal : ((sortedRegions fs).map Prod.snd).sum = fs.length := by
    rw [((sortedRegions_perm fs).map Prod.snd).sum_eq, labelCounts,
      List.map_map]
    have hcomp : ((regionLabels fs).dedup.map
          (Prod.snd ∘ fun r => (r, (regionLabels fs).countP fun x => x = r))).sum =
        ((regionLabels fs).dedup.map fun k =>
          (regionLabels fs).countP fun x => x = k).sum :=
      congrArg List.sum (List.map_congr_left fun a _ => rfl)
    rw [hcomp,
      sum_countP_eq_length _ (List.nodup_dedup _) _ fun x hx =>
        List.mem_dedup.mpr hx,
      regionLabels, List.length_map]
  have hsplit : ((topRegions fs).map Prod.snd).sum + othersCount fs =
      fs.length := by
    rw [topRegions, othersCount, ← htotal]
    conv_rhs => rw [← List.take_append_drop 10 (sortedRegions fs)]
    rw [List.map_append, List.sum_append]
  by_cases h : 0 < othersCount fs
  · rw [mapToPieRegions, if_pos h, List.map_append, List.sum_append]
    simpa using hsplit
  · rw [mapToPieRegions, if_neg h]
    have hz : othersCount fs = 0 := Nat.eq_zero_of_not_pos h
    rw [hz] at hsplit
    simpa using hsplit

end QuakeTracker
